import Mathlib

/-!
# Shallow embedding of the LEB128 codec (`src/lib.rs`)

The Rust source implements `leb128_decode` / `leb128_encode` generically over
`N : num_traits::PrimInt`, branching at runtime on `is_signed::<N>()`.  The
embedding splits that runtime branch into separate `_u` (unsigned) and `_s`
(signed) functions, parameterised by the bit width `W` of the concrete type
(`num.count_zeros()` of the zero value in the source).

Modelling conventions:
* an unsigned `W`-bit machine integer is a `Nat` (theorems carry `x < 2 ^ W`);
  a signed one is an `Int` (theorems carry `-2^(W-1) ≤ x < 2^(W-1)`);
* `num & 0xFF` on an unsigned value is `x &&& 255`; on a two's-complement
  signed value it is the nonnegative remainder `(x % 256).toNat`
  (Lean's `Int.emod`);
* `unsigned_shr` by `k` is `x >>> k` on `Nat`; `signed_shr` (arithmetic,
  sign-propagating) by `k` is floor division `x / 2^k`, which is Lean's
  `Int.ediv` for the positive divisor `2^k`;
* the byte reader is a `List Nat` of bytes; `read_exact` on an exhausted list
  is the I/O error `DecErr.io`.  Decode returns the unread remainder of the
  list alongside the result, mirroring the `&mut R` reader state;
* a Rust debug-build panic (left shift by an amount `≥ W`, an `unwrap` of
  `None`, or the `todo!()` in the signed decode branch) is modelled by the
  distinguished outcome `DecErr.crash` / `Option.none`;
* the source's unbounded `loop` in `leb128_encode` is embedded with an
  explicit fuel argument; fuel `W` is sufficient for every value representable
  in `W` bits (the completeness lemmas below discharge this).
-/

namespace LEB128

/-- Classification of a decode outcome that is not a value: an underlying
reader failure (`io`, from `read_exact`), the `InvalidData` overflow
classification, or a Rust debug-build panic (`crash`). -/
inductive DecErr where
  | io
  | invalidData
  | crash
deriving DecidableEq, Repr

/-- Embeds `pub const CONTINUATION: u8 = 1 << 7`. -/
def CONTINUATION : Nat := 1 <<< 7

/-- Embeds `max_shift = ((num.count_zeros() as usize) / 7) * 7` for a `W`-bit
destination type. -/
def maxShift (W : Nat) : Nat := (W / 7) * 7

/-- Embeds `max_last_byte = !(0xFF << (num.count_zeros() as usize - max_shift))`,
computed in `u8` arithmetic (shift truncated mod 256, complement as xor 255). -/
def maxLastByte (W : Nat) : Nat := ((255 <<< (W - maxShift W)) % 256) ^^^ 255

/-- Embeds `is_encode_end` for an unsigned operand:
`shr(num, 7).is_zero()` with `shr = unsigned_shr`. -/
def is_encode_end_u (num : Nat) : Bool := num >>> 7 == 0

/-- Embeds `is_encode_end` for a signed operand:
`let num = shr(num, 6); num.is_zero() || (num + N::one()).is_zero()` with
`shr = signed_shr` (arithmetic shift, i.e. floor division by 64). -/
def is_encode_end_s (num : Int) : Bool := num / 64 == 0 || num / 64 + 1 == 0

/-- Embeds the unsigned branch of `leb128_decode`'s `loop`.  State: the
accumulator `num` and the running bit offset `shift`; the list is the unread
portion of the reader.  Per iteration, mirroring the source order:
read one byte (`io` error if exhausted); compute `ends` from the continuation
bit; strip the flag by xor when set; fail with `invalidData` when the byte
sits exactly at `max_shift` and its payload exceeds `max_last_byte`;
otherwise accumulate `num | (payload << shift)` — a shift by `shift ≥ W`
is the debug-build panic `crash`; stop when `ends`. -/
def leb128_decode_u_go (W : Nat) : Nat → Nat → List Nat → Except DecErr Nat × List Nat
  | _, _, [] => (.error .io, [])
  | num, shift, b :: rest =>
    let ends := b &&& CONTINUATION == 0
    let b' := if ends then b else b ^^^ CONTINUATION
    if shift = maxShift W ∧ maxLastByte W < b' then
      (.error .invalidData, rest)
    else if W ≤ shift then
      (.error .crash, rest)
    else
      let num' := num ||| (b' <<< shift)
      if ends then (.ok num', rest) else leb128_decode_u_go W num' (shift + 7) rest

/-- Embeds `leb128_decode` at an unsigned `W`-bit type: the loop started with
`num = 0`, `shift = 0`. -/
def leb128_decode_u (W : Nat) (input : List Nat) : Except DecErr Nat × List Nat :=
  leb128_decode_u_go W 0 0 input

/-- Embeds `leb128_decode` at a signed `W`-bit type: the source's signed
branch is `todo!()`, an unconditional panic before any byte is read. -/
def leb128_decode_s (_W : Nat) (input : List Nat) : Except DecErr Int × List Nat :=
  (.error .crash, input)

/-- Embeds `leb128_encode`'s `loop` for an unsigned operand, with fuel.
Per iteration: `byte = num & 0xFF`; `ends = is_encode_end num` (computed on
the pre-shift value); emit `byte & !CONTINUATION` when ending, else
`byte | CONTINUATION`; continue with `shr(num, 7)`. -/
def leb128_encode_u_go : Nat → Nat → List Nat
  | 0, _ => []
  | fuel + 1, num =>
    let byte := num &&& 255
    let ends := is_encode_end_u num
    if ends then [byte &&& 127]
    else (byte ||| CONTINUATION) :: leb128_encode_u_go fuel (num >>> 7)

/-- Embeds `leb128_encode` at an unsigned `W`-bit type.  The byte mask
`N::from(0xFF).unwrap()` always succeeds for unsigned widths ≥ 8.  Fuel `W`
covers every `num < 2 ^ W`. -/
def leb128_encode_u (W num : Nat) : List Nat := leb128_encode_u_go W num

/-- Embeds `leb128_encode`'s `loop` for a signed operand, with fuel.
`byte = num & 0xFF` is the two's-complement low byte `(num % 256).toNat`;
the shift `shr(num, 7)` is arithmetic, i.e. floor division `num / 128`. -/
def leb128_encode_s_go : Nat → Int → List Nat
  | 0, _ => []
  | fuel + 1, num =>
    let byte : Nat := (num % 256).toNat
    let ends := is_encode_end_s num
    if ends then [byte &&& 127]
    else (byte ||| CONTINUATION) :: leb128_encode_s_go fuel (num / 128)

/-- Embeds `leb128_encode` at a signed `W`-bit type.  The byte mask
`let byte_mask = N::from(0xFF).unwrap()` is constructed before the loop:
`N::from(0xFF)` is `None` — and the `unwrap` a panic, modelled as `none` —
unless `0xFF` is representable, i.e. `255 ≤ 2^(W-1) - 1`. -/
def leb128_encode_s (W : Nat) (num : Int) : Option (List Nat) :=
  if (255 : Int) ≤ 2 ^ (W - 1) - 1 then some (leb128_encode_s_go W num) else none

/-! ## Basic facts about the embedded primitives -/

theorem CONTINUATION_eq : CONTINUATION = 128 := rfl

theorem maxShift_le (W : Nat) : maxShift W ≤ W := by
  unfold maxShift; omega

theorem maxShift_lt (W : Nat) (hW : W % 7 ≠ 0) : maxShift W < W := by
  unfold maxShift; omega

theorem sub_maxShift (W : Nat) : W - maxShift W = W % 7 := by
  unfold maxShift; omega

theorem shl_mod_xor_bounded : ∀ d, d < 7 → ((255 <<< d) % 256) ^^^ 255 = 2 ^ d - 1 := by
  decide

theorem maxLastByte_eq (W : Nat) : maxLastByte W = 2 ^ (W % 7) - 1 := by
  unfold maxLastByte
  rw [sub_maxShift]
  exact shl_mod_xor_bounded (W % 7) (Nat.mod_lt W (by omega))

set_option maxRecDepth 10000 in
theorem byte_lt_or_or (a : Nat) : a < 256 → (a ||| 128) = a % 128 + 128 := by
  revert a; decide

set_option maxRecDepth 10000 in
theorem byte_cont_clear_iff (a : Nat) : a < 256 → (a &&& 128 = 0 ↔ a < 128) := by
  revert a; decide

set_option maxRecDepth 10000 in
theorem byte_xor_cont (a : Nat) : a < 128 → (a + 128) ^^^ 128 = a := by
  revert a; decide

theorem and255_lt (x : Nat) : x &&& 255 < 256 :=
  Nat.lt_succ_of_le Nat.and_le_right

theorem and255_eq_mod (x : Nat) : x &&& 255 = x % 256 := by
  have := Nat.and_pow_two_sub_one_eq_mod x 8
  norm_num at this
  exact this

theorem and127_eq_mod (x : Nat) : x &&& 127 = x % 128 := by
  have := Nat.and_pow_two_sub_one_eq_mod x 7
  norm_num at this
  exact this

theorem shiftRight7_eq (x : Nat) : x >>> 7 = x / 128 := by
  have := Nat.shiftRight_eq_div_pow x 7
  norm_num at this
  exact this

/-- Accumulation of a fresh payload into disjoint high bits is addition. -/
theorem or_shift_add (num m s : Nat) (h : num < 2 ^ s) :
    num ||| (m <<< s) = num + m * 2 ^ s := by
  rw [Nat.shiftLeft_eq, Nat.or_comm, Nat.mul_comm m, Nat.add_comm num]
  exact (Nat.mul_add_lt_is_or h m).symm

/-! ## Unfolding lemmas for the encode loop -/

theorem encode_u_go_lt (fuel num : Nat) (h : num < 128) :
    leb128_encode_u_go (fuel + 1) num = [num] := by
  have hend : is_encode_end_u num = true := by
    simp [is_encode_end_u, shiftRight7_eq, Nat.div_eq_of_lt h]
  simp only [leb128_encode_u_go, hend, if_true]
  have h1 : num &&& 255 &&& 127 = num := by
    rw [Nat.and_assoc]
    have h2 : (255 : Nat) &&& 127 = 127 := by decide
    rw [h2, and127_eq_mod, Nat.mod_eq_of_lt h]
  rw [h1]

theorem encode_u_go_ge (fuel num : Nat) (h : 128 ≤ num) :
    leb128_encode_u_go (fuel + 1) num
      = (num % 128 + 128) :: leb128_encode_u_go fuel (num >>> 7) := by
  have hend : is_encode_end_u num = false := by
    simp [is_encode_end_u, shiftRight7_eq]
    omega
  simp only [leb128_encode_u_go, hend, Bool.false_eq_true, if_false, CONTINUATION_eq]
  rw [byte_lt_or_or (num &&& 255) (and255_lt num), and255_eq_mod, Nat.mod_mod_of_dvd]
  omega

/-- Single step of the unsigned decode loop on a nonempty reader, with the
`let`s resolved. -/
theorem decode_u_go_cons (W num shift b : Nat) (rest : List Nat) :
    leb128_decode_u_go W num shift (b :: rest) =
      if shift = maxShift W ∧ maxLastByte W < (if b &&& 128 = 0 then b else b ^^^ 128) then
        (.error .invalidData, rest)
      else if W ≤ shift then (.error .crash, rest)
      else if b &&& 128 = 0 then (.ok (num ||| (b <<< shift)), rest)
      else leb128_decode_u_go W (num ||| ((b ^^^ 128) <<< shift)) (shift + 7) rest := by
  by_cases hb : b &&& 128 = 0
  · simp [leb128_decode_u_go, CONTINUATION_eq, hb]
  · simp [leb128_decode_u_go, CONTINUATION_eq, hb]

/-! ## Decoding an encoding: the core characterization -/

/-- Core lemma: running the unsigned decode loop on the encoding of `x`
placed at bit offset `7 * j`, with accumulator `num` holding the bits below
that offset.  Either `x` fits in the remaining `W - 7 * j` bits and decoding
succeeds with the accumulated value, or the boundary-byte check fires with
`invalidData`.  The hypothesis `x < 2 ^ (maxShift W + 7 - 7 * j)` says the
encoding does not extend past the boundary byte at offset `maxShift W`. -/
theorem decode_u_go_encode (W : Nat) (hW : W % 7 ≠ 0) :
    ∀ fuel x j num rest, 0 < fuel → x < 128 ^ fuel → 7 * j ≤ maxShift W →
      num < 2 ^ (7 * j) → x < 2 ^ (maxShift W + 7 - 7 * j) →
      leb128_decode_u_go W num (7 * j) (leb128_encode_u_go fuel x ++ rest) =
        (if x < 2 ^ (W - 7 * j) then (.ok (num + x * 2 ^ (7 * j)), rest)
         else (.error .invalidData, rest)) := by
  intro fuel
  induction fuel with
  | zero => intro x j num rest h0 _ _ _ _; omega
  | succ fuel ih =>
    intro x j num rest _ hx hj hnum hbound
    have hmsW := maxShift_lt W hW
    by_cases hlt : x < 128
    · -- the encoding is the single byte [x]
      rw [encode_u_go_lt fuel x hlt]
      simp only [List.cons_append, List.nil_append]
      rw [decode_u_go_cons]
      have hxc : x &&& 128 = 0 := (byte_cont_clear_iff x (by omega)).mpr hlt
      rw [if_pos hxc]
      by_cases hmax : 7 * j = maxShift W
      · have hsub : W - 7 * j = W % 7 := by
          rw [hmax]; exact sub_maxShift W
        have hmlb := maxLastByte_eq W
        have hpow1 : 1 ≤ 2 ^ (W % 7) := Nat.one_le_two_pow
        by_cases hov : x < 2 ^ (W % 7)
        · rw [if_neg (by rw [hmlb]; omega), if_neg (by omega), if_pos hxc,
            or_shift_add num x (7 * j) hnum, if_pos (by rw [hsub]; exact hov)]
        · rw [if_pos ⟨hmax, by rw [hmlb]; omega⟩, if_neg (by rw [hsub]; exact hov)]
      · have hjlt : 7 * j < maxShift W := lt_of_le_of_ne hj hmax
        rw [if_neg (fun h => hmax h.1), if_neg (by omega), if_pos hxc,
          or_shift_add num x (7 * j) hnum]
        have hj7 : 7 * j + 7 ≤ maxShift W := by
          have : maxShift W = (W / 7) * 7 := rfl
          omega
        have h27 : (2 : Nat) ^ 7 ≤ 2 ^ (W - 7 * j) :=
          Nat.pow_le_pow_right (by norm_num) (by omega)
        rw [if_pos (by norm_num at h27; omega)]
    · -- the encoding is (x % 128 + 128) :: encoding of x >>> 7
      have hf : 0 < fuel := by
        rcases Nat.eq_zero_or_pos fuel with hf | hf
        · subst hf; norm_num at hx; omega
        · exact hf
      rw [encode_u_go_ge fuel x (by omega)]
      simp only [List.cons_append]
      rw [decode_u_go_cons]
      have hblt : x % 128 + 128 < 256 := by omega
      have hbcont : ¬(x % 128 + 128) &&& 128 = 0 := by
        rw [byte_cont_clear_iff _ hblt]; omega
      have hmax : 7 * j ≠ maxShift W := by
        intro he
        rw [he] at hbound
        have h7 : maxShift W + 7 - maxShift W = 7 := by omega
        rw [h7] at hbound
        norm_num at hbound
        omega
      have hj7 : 7 * j + 7 ≤ maxShift W := by
        have : maxShift W = (W / 7) * 7 := rfl
        omega
      rw [if_neg (fun h => hmax h.1), if_neg (by omega), if_neg hbcont,
        byte_xor_cont (x % 128) (Nat.mod_lt x (by norm_num)),
        or_shift_add num (x % 128) (7 * j) hnum]
      have h77 : 7 * j + 7 = 7 * (j + 1) := by ring
      rw [h77]
      have hp : (2 : Nat) ^ (7 * (j + 1)) = 2 ^ (7 * j) * 128 := by
        rw [Nat.mul_succ, pow_add]; norm_num
      have hdiv : x >>> 7 = x / 128 := shiftRight7_eq x
      have ihx : x >>> 7 < 128 ^ fuel := by
        rw [hdiv]
        rw [Nat.div_lt_iff_lt_mul (by norm_num : (0:Nat) < 128)]
        calc x < 128 ^ (fuel + 1) := hx
        _ = 128 ^ fuel * 128 := by rw [pow_succ]
      have ihnum : num + x % 128 * 2 ^ (7 * j) < 2 ^ (7 * (j + 1)) := by
        have hm : x % 128 ≤ 127 := by omega
        have := Nat.mul_le_mul_right (2 ^ (7 * j)) hm
        rw [hp]; omega
      have ihbound : x >>> 7 < 2 ^ (maxShift W + 7 - 7 * (j + 1)) := by
        rw [hdiv, Nat.div_lt_iff_lt_mul (by norm_num : (0:Nat) < 128)]
        have he : maxShift W + 7 - 7 * j = (maxShift W + 7 - 7 * (j + 1)) + 7 := by omega
        rw [he, pow_add] at hbound
        norm_num at hbound
        exact hbound
      rw [ih (x >>> 7) (j + 1) (num + x % 128 * 2 ^ (7 * j)) rest hf ihx (by omega) ihnum
        ihbound]
      have hWj : 7 * (j + 1) ≤ W := le_trans (by omega) (maxShift_le W)
      have hiff : (x >>> 7 < 2 ^ (W - 7 * (j + 1))) ↔ (x < 2 ^ (W - 7 * j)) := by
        rw [hdiv, Nat.div_lt_iff_lt_mul (by norm_num : (0:Nat) < 128)]
        have he : W - 7 * j = (W - 7 * (j + 1)) + 7 := by omega
        rw [he, pow_add]
        norm_num
      have hval : num + x % 128 * 2 ^ (7 * j) + x >>> 7 * 2 ^ (7 * (j + 1))
          = num + x * 2 ^ (7 * j) := by
        rw [hdiv, hp]
        have hsplit : x * 2 ^ (7 * j)
            = x % 128 * 2 ^ (7 * j) + x / 128 * (2 ^ (7 * j) * 128) := by
          calc x * 2 ^ (7 * j) = (x % 128 + 128 * (x / 128)) * 2 ^ (7 * j) := by
                rw [Nat.mod_add_div]
          _ = x % 128 * 2 ^ (7 * j) + x / 128 * (2 ^ (7 * j) * 128) := by ring
        rw [hsplit]
        ring
      by_cases hc : x < 2 ^ (W - 7 * j)
      · rw [if_pos (hiff.mpr hc), if_pos hc, hval]
      · rw [if_neg (fun h => hc (hiff.mp h)), if_neg hc]

/-! ## Claim C1 -/

/-- C1: Unsigned round-trip law — for every unsigned width
`W ∈ {8, 16, 32, 64, 128}` and every value `x` representable in `W` bits,
encoding `x` with `leb128_encode` and decoding the produced bytes at the same
width returns `Ok(x)` (consuming exactly the encoding). -/
theorem C1_unsigned_round_trip (W x : Nat)
    (hW : W = 8 ∨ W = 16 ∨ W = 32 ∨ W = 64 ∨ W = 128) (hx : x < 2 ^ W) :
    leb128_decode_u W (leb128_encode_u W x) = (.ok x, []) := by
  have hW7 : W % 7 ≠ 0 := by rcases hW with h|h|h|h|h <;> subst h <;> decide
  have h0 : 0 < W := by omega
  have hfuel : x < 128 ^ W :=
    lt_of_lt_of_le hx (Nat.pow_le_pow_left (by norm_num) W)
  have hbig : (2 : Nat) ^ W ≤ 2 ^ (maxShift W + 7 - 7 * 0) := by
    apply Nat.pow_le_pow_right (by norm_num)
    have : maxShift W = (W / 7) * 7 := rfl
    omega
  have h := decode_u_go_encode W hW7 W x 0 0 [] h0 hfuel (Nat.zero_le _)
    (by norm_num) (lt_of_lt_of_le hx hbig)
  rw [List.append_nil] at h
  simp only [Nat.mul_zero, pow_zero, Nat.sub_zero, mul_one, Nat.zero_add] at h
  rw [if_pos hx] at h
  exact h

/-- Witness for C1 at `W = 8`, `x = 200`. -/
theorem C1_unsigned_round_trip_witness :
    leb128_decode_u 8 (leb128_encode_u 8 200) = (.ok 200, []) :=
  C1_unsigned_round_trip 8 200 (Or.inl rfl) (by norm_num)

/-! ## Claim C3 -/

/-- Counterexample to C3 as stated: the `u16` value `16384` exceeds the `u8`
range, so the claim demands that decoding its encoding at width 8 fail with
`InvalidData`; instead the third encoded byte sits past the boundary byte and
the decode loop shifts by `14 ≥ 8`, a debug-build panic (`crash`), not
`InvalidData`. -/
theorem C3_counterexample :
    leb128_decode_u 8 (leb128_encode_u 16 16384) = (Except.error DecErr.crash, [])
    ∧ DecErr.crash ≠ DecErr.invalidData :=
  ⟨rfl, by decide⟩

/-- C3 (amended): cross-width overflow rejection holds for every value whose
encoding does not extend past the narrower type's boundary byte, i.e. for
`x < 2 ^ (maxShift W2 + 7)`: decoding at the narrower width `W2` fails with
`InvalidData` exactly when `x` exceeds `W2`'s range and returns `x` otherwise.
In particular the `u16` value `300` decoded as `u8` fails with `InvalidData`
and the `u16` value `255` decoded as `u8` returns `255`.  (Beyond that bound
the decode loop panics instead — see the counterexample.) -/
theorem C3_cross_width_overflow_rejection :
    (∀ W1 W2 x, (W1 = 8 ∨ W1 = 16 ∨ W1 = 32 ∨ W1 = 64 ∨ W1 = 128) →
      (W2 = 8 ∨ W2 = 16 ∨ W2 = 32 ∨ W2 = 64 ∨ W2 = 128) → W2 < W1 →
      x < 2 ^ W1 → x < 2 ^ (maxShift W2 + 7) →
      leb128_decode_u W2 (leb128_encode_u W1 x) =
        (if x < 2 ^ W2 then (.ok x, []) else (.error .invalidData, [])))
    ∧ leb128_decode_u 8 (leb128_encode_u 16 300) = (.error .invalidData, [])
    ∧ leb128_decode_u 8 (leb128_encode_u 16 255) = (.ok 255, []) := by
  refine ⟨?_, rfl, rfl⟩
  intro W1 W2 x hW1 hW2 hlt hx hshort
  have hW7 : W2 % 7 ≠ 0 := by rcases hW2 with h|h|h|h|h <;> subst h <;> decide
  have h0 : 0 < W1 := by omega
  have hfuel : x < 128 ^ W1 :=
    lt_of_lt_of_le hx (Nat.pow_le_pow_left (by norm_num) W1)
  have h := decode_u_go_encode W2 hW7 W1 x 0 0 [] h0 hfuel (Nat.zero_le _)
    (by norm_num) (by simpa using hshort)
  rw [List.append_nil] at h
  simp only [Nat.mul_zero, pow_zero, Nat.sub_zero, mul_one, Nat.zero_add] at h
  exact h

/-- Witness for C3 at `W1 = 16`, `W2 = 8`, `x = 500` (overflow). -/
theorem C3_cross_width_overflow_rejection_witness :
    leb128_decode_u 8 (leb128_encode_u 16 500) = (.error .invalidData, []) := by
  have h := C3_cross_width_overflow_rejection.1 16 8 500 (Or.inr (Or.inl rfl))
    (Or.inl rfl) (by norm_num) (by norm_num) (by decide)
  rw [if_neg (by norm_num)] at h
  exact h

/-! ## Claim C2 -/

/-- C2 (code evaluated at the failing input): the signed decode branch of
`leb128_decode` is `todo!()`, an unconditional panic.  Encoding `0` at signed
width 16 yields `[0x00]`, but decoding those bytes at signed width 16 panics
(`crash`, reading nothing) instead of returning `Ok(0)` — contradicting the
repository's own `signed_trips` test. -/
theorem C2_signed_decode_unimplemented :
    leb128_encode_s 16 0 = some [0]
    ∧ leb128_decode_s 16 [0] = (.error .crash, [0]) :=
  ⟨by decide, rfl⟩

/-! ## Claim C5 -/

/-- C5 (code evaluated at the failing input): for the signed 8-bit type the
byte-mask construction `N::from(0xFF).unwrap()` panics — `0xFF` is not
representable in `i8` — so encoding any `i8` value fails before writing a
byte; at every wider signed width the mask construction succeeds and the
encode loop runs. -/
theorem C5_encode_i8_byte_mask_panics :
    leb128_encode_s 8 0 = none
    ∧ leb128_encode_s 16 0 = some [0]
    ∧ leb128_encode_s 32 1 = some [1] := by
  refine ⟨?_, ?_, ?_⟩ <;> decide

/-! ## Claim C6 -/

/-- C6: exact fixture byte sequences — unsigned `0x81` (8-bit) encodes to
`[0x81, 0x01]`; unsigned `0x29442` (64-bit) to `[0xC2, 0xA8, 0x0A]`; signed
`0x7F` (16-bit) to `[0xFF, 0x00]`; signed `-0x53` (32-bit) to `[0xAD, 0x7F]`;
signed `-0x8652` (32-bit) to `[0xAE, 0xF3, 0x7D]`. -/
theorem C6_exact_fixtures :
    leb128_encode_u 8 0x81 = [0x81, 0x01]
    ∧ leb128_encode_u 64 0x29442 = [0xC2, 0xA8, 0x0A]
    ∧ leb128_encode_s 16 0x7F = some [0xFF, 0x00]
    ∧ leb128_encode_s 32 (-0x53) = some [0xAD, 0x7F]
    ∧ leb128_encode_s 32 (-0x8652) = some [0xAE, 0xF3, 0x7D] := by
  refine ⟨?_, ?_, ?_, ?_, ?_⟩ <;> decide

/-! ## Claim C4 -/

/-- Once the running offset has reached the destination width, any further
read either panics on the shift (`crash`) or hits the end of the reader
(`io`); `invalidData` and success can no longer occur. -/
theorem decode_u_go_ge_W (W : Nat) (hW : W % 7 ≠ 0) (num shift : Nat)
    (l : List Nat) (h : W ≤ shift) :
    (leb128_decode_u_go W num shift l).1 = .error .crash ∨
    (leb128_decode_u_go W num shift l).1 = .error .io := by
  cases l with
  | nil => exact Or.inr rfl
  | cons b rest =>
    rw [decode_u_go_cons]
    have hms := maxShift_lt W hW
    rw [if_neg (fun hc => absurd hc.1 (by omega)), if_pos h]
    exact Or.inl rfl

/-- Panic-freedom of the unsigned decode loop: starting at offset `7 * j`, no
shift by an amount `≥ W` happens provided the remaining input either runs out
at, or contains a clear-continuation byte at, an offset `≤ maxShift W`. -/
theorem decode_u_go_no_crash (W : Nat) (hW : W % 7 ≠ 0) :
    ∀ (l : List Nat) (num j : Nat), 7 * j ≤ maxShift W →
      (l.length ≤ (maxShift W - 7 * j) / 7 + 1 ∨
        ∃ i b, 7 * (i + j) ≤ maxShift W ∧ l[i]? = some b ∧ b &&& 128 = 0) →
      (leb128_decode_u_go W num (7 * j) l).1 ≠ .error .crash := by
  intro l
  induction l with
  | nil => intro num j hj hc; simp [leb128_decode_u_go]
  | cons b rest ih =>
    intro num j hj hc
    rw [decode_u_go_cons]
    by_cases hinv : 7 * j = maxShift W ∧
        maxLastByte W < (if b &&& 128 = 0 then b else b ^^^ 128)
    · rw [if_pos hinv]; simp
    · rw [if_neg hinv, if_neg (by have := maxShift_lt W hW; omega)]
      by_cases hb : b &&& 128 = 0
      · rw [if_pos hb]; simp
      · rw [if_neg hb]
        have h77 : 7 * j + 7 = 7 * (j + 1) := by ring
        rw [h77]
        have hq : maxShift W = (W / 7) * 7 := rfl
        by_cases hbdy : 7 * j = maxShift W
        · -- beyond the boundary byte the input must already be exhausted
          have hrest : rest = [] := by
            rcases hc with hlen | ⟨i, c, hi, hg, hcl⟩
            · have h0 : (maxShift W - 7 * j) / 7 = 0 := by omega
              rw [h0] at hlen
              simp only [List.length_cons] at hlen
              exact List.eq_nil_of_length_eq_zero (by omega)
            · have hi0 : i = 0 := by omega
              subst hi0
              simp at hg
              rw [hg] at hb
              exact absurd hcl hb
          subst hrest
          simp [leb128_decode_u_go]
        · have hj7 : 7 * (j + 1) ≤ maxShift W := by omega
          apply ih _ (j + 1) hj7
          rcases hc with hlen | ⟨i, c, hi, hg, hcl⟩
          · left
            simp at hlen
            omega
          · right
            have hi0 : i ≠ 0 := by
              intro h0
              subst h0
              simp at hg
              rw [hg] at hb
              exact absurd hcl hb
            obtain ⟨i', rfl⟩ : ∃ i', i = i' + 1 := ⟨i - 1, by omega⟩
            refine ⟨i', c, by omega, ?_, hcl⟩
            simpa using hg

/-- Counterexample to C4 as stated: on the over-long input
`[0x80, 0x80, 0x01]` the unsigned decode at width 8 reaches the third byte at
offset `14 ≥ 8` and shifts payload bits by an amount `≥ W` — the
debug-build panic modelled by `crash` — contradicting "never performs a left
shift of payload bits by an offset ≥ W". -/
theorem C4_counterexample :
    (leb128_decode_u 8 [128, 128, 1]).1 = Except.error DecErr.crash :=
  rfl

/-- C4 (amended): unsigned decode never panics — in particular never shifts
payload bits by an offset `≥ W` — provided the input terminates within the
first `⌊W/7⌋ + 1` bytes: either the reader has at most `⌊W/7⌋ + 1` bytes, or
some byte at index `≤ ⌊W/7⌋` has a clear continuation bit.  (On over-long
inputs whose continuation bytes extend past the boundary byte the shift does
overflow — see the counterexample.)  Decode always returns either `Ok` of a
complete value or an error; partial results do not exist in the model. -/
theorem C4_decode_no_panic (W : Nat) (l : List Nat)
    (hW : W = 8 ∨ W = 16 ∨ W = 32 ∨ W = 64 ∨ W = 128)
    (hterm : l.length ≤ W / 7 + 1 ∨
      ∃ i b, i ≤ W / 7 ∧ l[i]? = some b ∧ b &&& 128 = 0) :
    (leb128_decode_u W l).1 ≠ .error .crash := by
  have hW7 : W % 7 ≠ 0 := by rcases hW with h|h|h|h|h <;> subst h <;> decide
  have hq : maxShift W = (W / 7) * 7 := rfl
  have h := decode_u_go_no_crash W hW7 l 0 0 (by omega) ?_
  · simpa using h
  · rcases hterm with hlen | ⟨i, b, hi, hg, hcl⟩
    · left; omega
    · right; exact ⟨i, b, by omega, hg, hcl⟩

/-- Witness for C4 at `W = 8` on the single-byte input `[0x83]`. -/
theorem C4_decode_no_panic_witness :
    (leb128_decode_u 8 [131]).1 ≠ .error .crash :=
  C4_decode_no_panic 8 [131] (Or.inl rfl) (Or.inl (by norm_num))

/-! ## Claim C10 -/

/-- Shape of a successful decode: the loop consumed a (possibly empty) run of
continuation bytes followed by the first clear-continuation byte; everything
after remains unread. -/
theorem decode_u_go_ok_shape (W : Nat) :
    ∀ (l : List Nat) (num shift x : Nat) (rest : List Nat),
      leb128_decode_u_go W num shift l = (.ok x, rest) →
      ∃ pre b, l = pre ++ b :: rest ∧ (∀ c ∈ pre, c &&& 128 ≠ 0) ∧ b &&& 128 = 0 := by
  intro l
  induction l with
  | nil =>
    intro num shift x rest h
    exact absurd h (by simp [leb128_decode_u_go])
  | cons b rest' ih =>
    intro num shift x rest h
    rw [decode_u_go_cons] at h
    by_cases h1 : shift = maxShift W ∧
        maxLastByte W < (if b &&& 128 = 0 then b else b ^^^ 128)
    · rw [if_pos h1] at h
      injection h with he _
      exact Except.noConfusion he
    · rw [if_neg h1] at h
      by_cases h2 : W ≤ shift
      · rw [if_pos h2] at h
        injection h with he _
        exact Except.noConfusion he
      · rw [if_neg h2] at h
        by_cases hb : b &&& 128 = 0
        · rw [if_pos hb] at h
          injection h with _ hrest
          exact ⟨[], b, by rw [hrest]; rfl, by simp, hb⟩
        · rw [if_neg hb] at h
          obtain ⟨pre, c, hl, hpre, hcl⟩ := ih _ _ _ _ h
          refine ⟨b :: pre, c, by rw [List.cons_append, hl], ?_, hcl⟩
          intro d hd
          rcases List.mem_cons.mp hd with rfl | hd'
          · exact hb
          · exact hpre d hd'

/-- Shape of an `invalidData` decode: the loop consumed exactly the
continuation bytes up to the boundary byte plus the offending boundary byte
itself, whose stripped payload exceeds `max_last_byte`; everything after
remains unread. -/
theorem decode_u_go_invalid_shape (W : Nat) (hW : W % 7 ≠ 0) :
    ∀ (l : List Nat) (num j : Nat) (rest : List Nat), 7 * j ≤ maxShift W →
      leb128_decode_u_go W num (7 * j) l = (.error .invalidData, rest) →
      ∃ pre b, l = pre ++ b :: rest ∧ 7 * pre.length + 7 * j = maxShift W ∧
        (∀ c ∈ pre, c &&& 128 ≠ 0) ∧
        maxLastByte W < (if b &&& 128 = 0 then b else b ^^^ 128) := by
  intro l
  induction l with
  | nil =>
    intro num j rest hj h
    exact absurd h (by simp [leb128_decode_u_go])
  | cons b rest' ih =>
    intro num j rest hj h
    rw [decode_u_go_cons] at h
    by_cases h1 : 7 * j = maxShift W ∧
        maxLastByte W < (if b &&& 128 = 0 then b else b ^^^ 128)
    · rw [if_pos h1] at h
      injection h with _ hrest
      exact ⟨[], b, by rw [hrest]; rfl, by simpa using h1.1, by simp, h1.2⟩
    · rw [if_neg h1] at h
      by_cases h2 : W ≤ 7 * j
      · rw [if_pos h2] at h
        injection h with he _
        exact absurd (Except.error.inj he) (by decide)
      · rw [if_neg h2] at h
        by_cases hb : b &&& 128 = 0
        · rw [if_pos hb] at h
          injection h with he _
          exact Except.noConfusion he
        · rw [if_neg hb] at h
          have hq : maxShift W = (W / 7) * 7 := rfl
          by_cases hbdy : 7 * j = maxShift W
          · exfalso
            have hge := decode_u_go_ge_W W hW (num ||| ((b ^^^ 128) <<< (7 * j)))
              (7 * j + 7) rest' (by omega)
            rw [h] at hge
            simp at hge
          · have hj7 : 7 * (j + 1) ≤ maxShift W := by omega
            have h77 : 7 * j + 7 = 7 * (j + 1) := by ring
            rw [h77] at h
            obtain ⟨pre, c, hl, hlen, hpre, hover⟩ := ih _ (j + 1) rest hj7 h
            refine ⟨b :: pre, c, by rw [List.cons_append, hl],
              by simp only [List.length_cons]; omega, ?_, hover⟩
            intro d hd
            rcases List.mem_cons.mp hd with rfl | hd'
            · exact hb
            · exact hpre d hd'

/-- C10: unsigned decode reads one byte at a time and consumes exactly what
the result accounts for.  On success the consumed prefix is the run of
continuation bytes up to and including the first byte with clear continuation
bit; on an `InvalidData` overflow it is exactly the `⌊W/7⌋` continuation
bytes up to and including the offending boundary byte.  The returned
remainder — bytes never read from the source — is the rest of the input. -/
theorem C10_decode_consumes_exactly (W : Nat) (l : List Nat)
    (hW : W = 8 ∨ W = 16 ∨ W = 32 ∨ W = 64 ∨ W = 128) :
    (∀ x rest, leb128_decode_u W l = (.ok x, rest) →
      ∃ pre b, l = pre ++ b :: rest ∧ (∀ c ∈ pre, c &&& 128 ≠ 0) ∧ b &&& 128 = 0)
    ∧ (∀ rest, leb128_decode_u W l = (.error .invalidData, rest) →
      ∃ pre b, l = pre ++ b :: rest ∧ pre.length = W / 7 ∧
        (∀ c ∈ pre, c &&& 128 ≠ 0) ∧
        maxLastByte W < (if b &&& 128 = 0 then b else b ^^^ 128)) := by
  have hW7 : W % 7 ≠ 0 := by rcases hW with h|h|h|h|h <;> subst h <;> decide
  have hq : maxShift W = (W / 7) * 7 := rfl
  constructor
  · intro x rest h
    exact decode_u_go_ok_shape W l 0 0 x rest h
  · intro rest h
    obtain ⟨pre, b, hl, hlen, hpre, hover⟩ :=
      decode_u_go_invalid_shape W hW7 l 0 0 rest (by omega) h
    exact ⟨pre, b, hl, by omega, hpre, hover⟩

/-- Witness for C10 at `W = 8` on the input `[0x03, 0xFF]`: decoding succeeds
consuming exactly `[0x03]` and leaves `[0xFF]` unread. -/
theorem C10_decode_consumes_exactly_witness :
    ∃ pre b, ([3, 255] : List Nat) = pre ++ b :: [255] ∧
      (∀ c ∈ pre, c &&& 128 ≠ 0) ∧ b &&& 128 = 0 :=
  (C10_decode_consumes_exactly 8 [3, 255] (Or.inl rfl)).1 3 [255] rfl

/-! ## Claim C8 -/

/-- Reading a run of continuation bytes that does not extend past the byte
after the boundary byte, each boundary-positioned byte passing the range
check, ends in the reader's `io` error when the bytes run out. -/
theorem decode_u_go_all_cont_io (W : Nat) (hW : W % 7 ≠ 0) :
    ∀ (l : List Nat) (num j : Nat),
      (∀ b ∈ l, b &&& 128 ≠ 0) →
      7 * j + 7 * l.length ≤ maxShift W + 7 →
      (∀ i b, l[i]? = some b → 7 * (j + i) = maxShift W →
        b ^^^ 128 ≤ maxLastByte W) →
      (leb128_decode_u_go W num (7 * j) l).1 = .error .io := by
  intro l
  induction l with
  | nil => intro num j _ _ _; rfl
  | cons b rest ih =>
    intro num j hcont hlen hbdy
    rw [decode_u_go_cons]
    have hms := maxShift_lt W hW
    have hq : maxShift W = (W / 7) * 7 := rfl
    have hb : ¬ b &&& 128 = 0 := hcont b (List.mem_cons_self b rest)
    have hcheck : ¬(7 * j = maxShift W ∧
        maxLastByte W < (if b &&& 128 = 0 then b else b ^^^ 128)) := by
      rintro ⟨hj0, hover⟩
      have := hbdy 0 b (by simp) (by omega)
      rw [if_neg hb] at hover
      omega
    rw [if_neg hcheck]
    have hW2 : ¬ W ≤ 7 * j := by
      simp only [List.length_cons] at hlen
      omega
    rw [if_neg hW2, if_neg hb]
    have h77 : 7 * j + 7 = 7 * (j + 1) := by ring
    rw [h77]
    apply ih
    · intro d hd
      exact hcont d (List.mem_cons_of_mem b hd)
    · simp only [List.length_cons] at hlen
      omega
    · intro i d hg hsh
      exact hbdy (i + 1) d (by simpa using hg) (by omega)

/-- Running the decode loop into a boundary byte whose stripped 7-bit payload
exceeds `max_last_byte` yields exactly `invalidData`, consuming that byte. -/
theorem decode_u_go_boundary_invalid (W : Nat) (hW : W % 7 ≠ 0) :
    ∀ (pre : List Nat) (num j c : Nat) (rest : List Nat),
      7 * j + 7 * pre.length = maxShift W →
      (∀ b ∈ pre, b &&& 128 ≠ 0) → c < 256 → maxLastByte W < c &&& 127 →
      leb128_decode_u_go W num (7 * j) (pre ++ c :: rest) =
        (.error .invalidData, rest) := by
  intro pre
  induction pre with
  | nil =>
    intro num j c rest hlen hcont hc hover
    simp only [List.nil_append]
    rw [decode_u_go_cons]
    have hstrip : (if c &&& 128 = 0 then c else c ^^^ 128) = c &&& 127 := by
      by_cases hcc : c &&& 128 = 0
      · rw [if_pos hcc]
        have hlt : c < 128 := (byte_cont_clear_iff c hc).mp hcc
        rw [and127_eq_mod, Nat.mod_eq_of_lt hlt]
      · rw [if_neg hcc]
        have hiff := byte_cont_clear_iff c hc
        have hge : 128 ≤ c := by
          have : ¬ c < 128 := fun hl => hcc (hiff.mpr hl)
          omega
        have hx : c ^^^ 128 = c - 128 := by
          have h1 : c - 128 + 128 = c := by omega
          calc c ^^^ 128 = (c - 128 + 128) ^^^ 128 := by rw [h1]
          _ = c - 128 := byte_xor_cont (c - 128) (by omega)
        rw [hx, and127_eq_mod]
        omega
    rw [hstrip]
    have hj : 7 * j = maxShift W := by simpa using hlen
    rw [if_pos ⟨hj, hover⟩]
  | cons b pre' ih =>
    intro num j c rest hlen hcont hc hover
    simp only [List.cons_append]
    rw [decode_u_go_cons]
    have hb : ¬ b &&& 128 = 0 := hcont b (List.mem_cons_self b pre')
    have hms := maxShift_lt W hW
    have hne : 7 * j ≠ maxShift W := by
      simp only [List.length_cons] at hlen
      omega
    rw [if_neg (fun hcc => hne hcc.1), if_neg (by omega), if_neg hb]
    have h77 : 7 * j + 7 = 7 * (j + 1) := by ring
    rw [h77]
    apply ih
    · simp only [List.length_cons] at hlen
      omega
    · intro d hd
      exact hcont d (List.mem_cons_of_mem b hd)
    · exact hc
    · exact hover

/-- Counterexample to C8 as stated: on the all-continuation input
`[0x80, 0x80, 0x80]` at width 8 the source also "ends before a byte with
clear continuation bit", yet decode does not return the I/O error — the
third byte is past the boundary byte and the loop panics on the shift
(`crash`). -/
theorem C8_counterexample :
    (leb128_decode_u 8 [128, 128, 128]).1 = Except.error DecErr.crash
    ∧ DecErr.crash ≠ DecErr.io :=
  ⟨rfl, by decide⟩

/-- C8 (amended): error-class distinction.  (a) When the byte source ends
before a clear-continuation byte and at or before the boundary byte (at most
`⌊W/7⌋` continuation bytes), decode returns the underlying I/O error.
(b) When a successfully read boundary byte's stripped 7-bit payload exceeds
`max_last_byte`, decode returns `InvalidData`, never a generic I/O failure.
(c) The two classifications are distinct.  (On inputs whose continuation
bytes extend past the boundary byte the loop panics instead — see the
counterexample.) -/
theorem C8_error_class_distinction :
    (∀ W l, (W = 8 ∨ W = 16 ∨ W = 32 ∨ W = 64 ∨ W = 128) →
      (∀ b ∈ l, b &&& 128 ≠ 0) → l.length ≤ W / 7 →
      (leb128_decode_u W l).1 = .error .io)
    ∧ (∀ W pre c rest, (W = 8 ∨ W = 16 ∨ W = 32 ∨ W = 64 ∨ W = 128) →
      pre.length = W / 7 → (∀ b ∈ pre, b &&& 128 ≠ 0) → c < 256 →
      maxLastByte W < c &&& 127 →
      leb128_decode_u W (pre ++ c :: rest) = (.error .invalidData, rest))
    ∧ DecErr.io ≠ DecErr.invalidData := by
  refine ⟨?_, ?_, by decide⟩
  · intro W l hW hcont hlen
    have hW7 : W % 7 ≠ 0 := by rcases hW with h|h|h|h|h <;> subst h <;> decide
    have hq : maxShift W = (W / 7) * 7 := rfl
    apply decode_u_go_all_cont_io W hW7 l 0 0 hcont (by omega)
    intro i b hg hsh
    exfalso
    have hi : l.length ≤ i := by omega
    rw [List.getElem?_eq_none hi] at hg
    exact Option.noConfusion hg
  · intro W pre c rest hW hlen hcont hc hover
    have hW7 : W % 7 ≠ 0 := by rcases hW with h|h|h|h|h <;> subst h <;> decide
    have hq : maxShift W = (W / 7) * 7 := rfl
    exact decode_u_go_boundary_invalid W hW7 pre 0 0 c rest (by omega) hcont hc hover

/-- Witness for C8: at `W = 8`, the single continuation byte `[0x90]`
exhausts the source and yields the I/O error. -/
theorem C8_error_class_distinction_witness :
    (leb128_decode_u 8 [144]).1 = .error .io :=
  C8_error_class_distinction.1 8 [144] (Or.inl rfl) (by decide) (by norm_num)

/-! ## Claim C9 -/

/-- Forces the continuation bit on the last byte of a sequence (turning a
canonical encoding into a prefix of a padded, non-minimal one). -/
def setLastCont : List Nat → List Nat
  | [] => []
  | [b] => [b ||| 128]
  | b :: rest => b :: setLastCont rest

/-- With positive fuel the encode loop always emits at least one byte. -/
theorem encode_u_go_ne_nil (fuel num : Nat) (h : 0 < fuel) :
    leb128_encode_u_go fuel num ≠ [] := by
  obtain ⟨f, rfl⟩ : ∃ f, fuel = f + 1 := ⟨fuel - 1, by omega⟩
  by_cases hlt : num < 128
  · rw [encode_u_go_lt f num hlt]
    simp
  · rw [encode_u_go_ge f num (by omega)]
    simp

/-- Decoding a run of `m` zero-payload continuation bytes followed by a final
zero byte leaves the accumulator unchanged and succeeds, provided the final
byte's offset does not exceed `max_shift`. -/
theorem decode_u_go_zero_pad (W : Nat) (hW : W % 7 ≠ 0) :
    ∀ (m num j : Nat) (r : List Nat), 7 * j + 7 * m ≤ maxShift W →
      leb128_decode_u_go W num (7 * j) (List.replicate m 128 ++ 0 :: r) =
        (.ok num, r) := by
  intro m
  induction m with
  | zero =>
    intro num j r hm
    have hms := maxShift_lt W hW
    simp only [List.replicate, List.nil_append]
    rw [decode_u_go_cons]
    have hcond : (if (0 : Nat) &&& 128 = 0 then (0 : Nat) else 0 ^^^ 128) = 0 := by decide
    rw [hcond]
    rw [if_neg (fun hc => absurd hc.2 (by omega)), if_neg (by omega),
      if_pos (by decide)]
    rw [Nat.zero_shiftLeft, Nat.or_zero]
  | succ m ih =>
    intro num j r hm
    have hms := maxShift_lt W hW
    simp only [List.replicate, List.cons_append]
    rw [decode_u_go_cons]
    have hcond : (if (128 : Nat) &&& 128 = 0 then (128 : Nat) else 128 ^^^ 128) = 0 := by
      decide
    rw [hcond]
    rw [if_neg (fun hc => absurd hc.2 (by omega)), if_neg (by omega),
      if_neg (by decide)]
    have hx : (128 : Nat) ^^^ 128 = 0 := by decide
    rw [hx, Nat.zero_shiftLeft, Nat.or_zero]
    have h77 : 7 * j + 7 = 7 * (j + 1) := by ring
    rw [h77]
    exact ih num (j + 1) r (by omega)

/-- Decoding a canonical encoding whose last byte has been given a
continuation flag, followed by zero padding and a final zero byte, still
recovers the encoded value, provided the padding stays within the boundary
byte. -/
theorem decode_u_go_pad_encode (W : Nat) (hW : W % 7 ≠ 0) :
    ∀ fuel x m j num r, 0 < fuel → x < 128 ^ fuel → num < 2 ^ (7 * j) →
      7 * j + 7 * ((leb128_encode_u_go fuel x).length + m) ≤ maxShift W →
      leb128_decode_u_go W num (7 * j)
        (setLastCont (leb128_encode_u_go fuel x) ++ (List.replicate m 128 ++ 0 :: r)) =
        (.ok (num + x * 2 ^ (7 * j)), r) := by
  intro fuel
  induction fuel with
  | zero => intro x m j num r h0 _ _ _; omega
  | succ fuel ih =>
    intro x m j num r _ hx hnum hfit
    have hms := maxShift_lt W hW
    by_cases hlt : x < 128
    · rw [encode_u_go_lt fuel x hlt] at hfit ⊢
      simp only [List.length_cons, List.length_nil] at hfit
      have hor : setLastCont [x] = [x + 128] := by
        have := byte_lt_or_or x (by omega)
        rw [Nat.mod_eq_of_lt hlt] at this
        simp [setLastCont, this]
      rw [hor]
      simp only [List.cons_append, List.nil_append]
      rw [decode_u_go_cons]
      have hblt : x + 128 < 256 := by omega
      have hbcont : ¬(x + 128) &&& 128 = 0 := by
        rw [byte_cont_clear_iff _ hblt]; omega
      rw [if_neg (fun hc => by omega), if_neg (by omega), if_neg hbcont,
        byte_xor_cont x hlt, or_shift_add num x (7 * j) hnum]
      have h77 : 7 * j + 7 = 7 * (j + 1) := by ring
      rw [h77]
      exact decode_u_go_zero_pad W hW m (num + x * 2 ^ (7 * j)) (j + 1) r (by omega)
    · have hf : 0 < fuel := by
        rcases Nat.eq_zero_or_pos fuel with hf | hf
        · subst hf; norm_num at hx; omega
        · exact hf
      rw [encode_u_go_ge fuel x (by omega)] at hfit ⊢
      cases htail : leb128_encode_u_go fuel (x >>> 7) with
      | nil => exact absurd htail (encode_u_go_ne_nil fuel (x >>> 7) hf)
      | cons t ts =>
        rw [htail] at hfit
        simp only [List.length_cons] at hfit
        have hset : setLastCont ((x % 128 + 128) :: t :: ts)
            = (x % 128 + 128) :: setLastCont (t :: ts) := rfl
        rw [hset]
        simp only [List.cons_append]
        rw [decode_u_go_cons]
        have hblt : x % 128 + 128 < 256 := by omega
        have hbcont : ¬(x % 128 + 128) &&& 128 = 0 := by
          rw [byte_cont_clear_iff _ hblt]; omega
        have hmax : 7 * j ≠ maxShift W := by omega
        rw [if_neg (fun hc => hmax hc.1), if_neg (by omega), if_neg hbcont,
          byte_xor_cont (x % 128) (Nat.mod_lt x (by norm_num)),
          or_shift_add num (x % 128) (7 * j) hnum]
        have h77 : 7 * j + 7 = 7 * (j + 1) := by ring
        rw [h77]
        have hp : (2 : Nat) ^ (7 * (j + 1)) = 2 ^ (7 * j) * 128 := by
          rw [Nat.mul_succ, pow_add]; norm_num
        have hdiv : x >>> 7 = x / 128 := shiftRight7_eq x
        have ihx : x >>> 7 < 128 ^ fuel := by
          rw [hdiv, Nat.div_lt_iff_lt_mul (by norm_num : (0:Nat) < 128)]
          calc x < 128 ^ (fuel + 1) := hx
          _ = 128 ^ fuel * 128 := by rw [pow_succ]
        have ihnum : num + x % 128 * 2 ^ (7 * j) < 2 ^ (7 * (j + 1)) := by
          have hm : x % 128 ≤ 127 := by omega
          have := Nat.mul_le_mul_right (2 ^ (7 * j)) hm
          rw [hp]; omega
        have hrec := ih (x >>> 7) m (j + 1) (num + x % 128 * 2 ^ (7 * j)) r hf ihx ihnum
          (by rw [htail]; simp only [List.length_cons]; omega)
        rw [htail] at hrec
        rw [hrec]
        have hval : num + x % 128 * 2 ^ (7 * j) + x >>> 7 * 2 ^ (7 * (j + 1))
            = num + x * 2 ^ (7 * j) := by
          rw [hdiv, hp]
          have hsplit : x * 2 ^ (7 * j)
              = x % 128 * 2 ^ (7 * j) + x / 128 * (2 ^ (7 * j) * 128) := by
            calc x * 2 ^ (7 * j) = (x % 128 + 128 * (x / 128)) * 2 ^ (7 * j) := by
                  rw [Nat.mod_add_div]
            _ = x % 128 * 2 ^ (7 * j) + x / 128 * (2 ^ (7 * j) * 128) := by ring
          rw [hsplit]
          ring
        rw [hval]

/-- C9: unsigned decode accepts non-canonical input.  Padding the canonical
encoding of `x` — continuation flag forced on its last byte, `m` redundant
zero-payload continuation bytes appended, and a final clear zero byte — still
decodes to `Ok(x)`, provided the final byte's bit offset
`7 * (length + m)` does not exceed `max_shift`. -/
theorem C9_nonminimal_input_accepted (W x m : Nat)
    (hW : W = 8 ∨ W = 16 ∨ W = 32 ∨ W = 64 ∨ W = 128) (hx : x < 2 ^ W)
    (hfit : 7 * ((leb128_encode_u W x).length + m) ≤ maxShift W) :
    leb128_decode_u W
      (setLastCont (leb128_encode_u W x) ++ (List.replicate m 128 ++ [0])) =
      (.ok x, []) := by
  have hW7 : W % 7 ≠ 0 := by rcases hW with h|h|h|h|h <;> subst h <;> decide
  have h0 : 0 < W := by omega
  have hfuel : x < 128 ^ W :=
    lt_of_lt_of_le hx (Nat.pow_le_pow_left (by norm_num) W)
  have h := decode_u_go_pad_encode W hW7 W x m 0 0 [] h0 hfuel (by norm_num)
    (by simpa using hfit)
  simpa using h

/-- Witness for C9 at `W = 32`, `x = 5`, two redundant mid-padding bytes:
the non-minimal input `[0x85, 0x80, 0x80, 0x00]` decodes to `5`. -/
theorem C9_nonminimal_input_accepted_witness :
    leb128_decode_u 32
      (setLastCont (leb128_encode_u 32 5) ++ (List.replicate 2 128 ++ [0])) =
      (.ok 5, []) :=
  C9_nonminimal_input_accepted 32 5 2 (Or.inr (Or.inr (Or.inl rfl))) (by norm_num)
    (by decide)

/-! ## Claim C7

The minimality half of C7 compares the encoder's output against every valid
LEB128 sequence for the same value; the notion of "valid sequence" and its
value are taken from the spec's wire-format section (each byte an octet with
7 payload bits, continuation flag set on all but the final byte, payload
groups least-significant first, signed values sign-extended from bit 6 of
the final byte). -/

/-- Modelled from the spec (wire format): the structural invariant of a
LEB128 byte sequence — nonempty, every byte an octet, continuation bit set on
all bytes except the last, clear on the last. -/
def wfLEB : List Nat → Bool
  | [] => false
  | [b] => decide (b < 128)
  | b :: rest => decide (128 ≤ b) && decide (b < 256) && wfLEB rest

/-- Modelled from the spec (wire format): the unsigned value of a LEB128
sequence, 7-bit payloads in least-significant-first order. -/
def uvalue : List Nat → Nat
  | [] => 0
  | b :: rest => (b &&& 127) + 128 * uvalue rest

/-- Modelled from the spec (wire format): the signed value of a LEB128
sequence, sign-extended from bit 6 of the final byte. -/
def svalue : List Nat → Int
  | [] => 0
  | [b] => ((b &&& 127 : Nat) : Int) - (if b &&& 64 = 0 then 0 else 128)
  | b :: rest => ((b &&& 127 : Nat) : Int) + 128 * svalue rest

set_option maxRecDepth 10000 in
theorem byte_add_cont_and127 (a : Nat) : a < 128 → (a + 128) &&& 127 = a := by
  revert a; decide

set_option maxRecDepth 10000 in
theorem byte_bit6_iff (a : Nat) : a < 128 → (a &&& 64 = 0 ↔ a < 64) := by
  revert a; decide

theorem shiftRight7_lt_pow (fuel x : Nat) (hx : x < 128 ^ (fuel + 1)) :
    x >>> 7 < 128 ^ fuel := by
  rw [shiftRight7_eq, Nat.div_lt_iff_lt_mul (by norm_num : (0:Nat) < 128)]
  calc x < 128 ^ (fuel + 1) := hx
  _ = 128 ^ fuel * 128 := by rw [pow_succ]

/-- The encoder's output satisfies the structural invariant: continuation bit
set on every byte but the last, clear on the last. -/
theorem encode_u_go_wf (fuel : Nat) : ∀ x, 0 < fuel → x < 128 ^ fuel →
    wfLEB (leb128_encode_u_go fuel x) = true := by
  induction fuel with
  | zero => intro x h0 _; exact absurd h0 (lt_irrefl 0)
  | succ fuel ih =>
    intro x _ hx
    by_cases hlt : x < 128
    · rw [encode_u_go_lt fuel x hlt]
      simp [wfLEB, hlt]
    · have hf : 0 < fuel := by
        rcases Nat.eq_zero_or_pos fuel with hf | hf
        · subst hf; norm_num at hx; omega
        · exact hf
      rw [encode_u_go_ge fuel x (by omega)]
      cases htail : leb128_encode_u_go fuel (x >>> 7) with
      | nil => exact absurd htail (encode_u_go_ne_nil fuel (x >>> 7) hf)
      | cons t ts =>
        have hwf2 : wfLEB (t :: ts) = true := by
          rw [← htail]
          exact ih (x >>> 7) hf (shiftRight7_lt_pow fuel x hx)
        simp only [wfLEB, hwf2, Bool.and_true, Bool.and_eq_true, decide_eq_true_eq]
        omega

/-- The encoder's output denotes the encoded value under the spec's unsigned
wire-format interpretation. -/
theorem encode_u_go_uvalue (fuel : Nat) : ∀ x, 0 < fuel → x < 128 ^ fuel →
    uvalue (leb128_encode_u_go fuel x) = x := by
  induction fuel with
  | zero => intro x h0 _; exact absurd h0 (lt_irrefl 0)
  | succ fuel ih =>
    intro x _ hx
    by_cases hlt : x < 128
    · rw [encode_u_go_lt fuel x hlt]
      simp only [uvalue, mul_zero, add_zero]
      rw [and127_eq_mod, Nat.mod_eq_of_lt hlt]
    · have hf : 0 < fuel := by
        rcases Nat.eq_zero_or_pos fuel with hf | hf
        · subst hf; norm_num at hx; omega
        · exact hf
      rw [encode_u_go_ge fuel x (by omega)]
      simp only [uvalue]
      rw [byte_add_cont_and127 (x % 128) (Nat.mod_lt x (by norm_num)),
        ih (x >>> 7) hf (shiftRight7_lt_pow fuel x hx), shiftRight7_eq]
      omega

/-- Length window of the encoder's output: the value fits in `7 · len` bits
and (unless the output is a single byte) needs more than `7 · (len - 1)`. -/
theorem encode_u_go_len (fuel : Nat) : ∀ x, 0 < fuel → x < 128 ^ fuel →
    x < 128 ^ (leb128_encode_u_go fuel x).length ∧
    (128 ^ ((leb128_encode_u_go fuel x).length - 1) ≤ x ∨
      (leb128_encode_u_go fuel x).length = 1) := by
  induction fuel with
  | zero => intro x h0 _; exact absurd h0 (lt_irrefl 0)
  | succ fuel ih =>
    intro x _ hx
    by_cases hlt : x < 128
    · rw [encode_u_go_lt fuel x hlt]
      refine ⟨by simpa using hlt, Or.inr rfl⟩
    · have hf : 0 < fuel := by
        rcases Nat.eq_zero_or_pos fuel with hf | hf
        · subst hf; norm_num at hx; omega
        · exact hf
      rw [encode_u_go_ge fuel x (by omega)]
      obtain ⟨ih1, ih2⟩ := ih (x >>> 7) hf (shiftRight7_lt_pow fuel x hx)
      cases htail : leb128_encode_u_go fuel (x >>> 7) with
      | nil => exact absurd htail (encode_u_go_ne_nil fuel (x >>> 7) hf)
      | cons t ts =>
        rw [htail] at ih1 ih2
        rw [shiftRight7_eq] at ih1 ih2
        simp only [List.length_cons]
        have hone : (1:Nat) ≤ ts.length + 1 := by omega
        have hsucc : (128:Nat) ^ (ts.length + 1 + 1 - 1) = 128 ^ (ts.length + 1) := by
          norm_num
        have hp1 : (128:Nat) ^ (ts.length + 1 + 1) = 128 ^ (ts.length + 1) * 128 :=
          pow_succ 128 (ts.length + 1)
        have hp2 : (128:Nat) ^ (ts.length + 1) = 128 ^ (ts.length + 1 - 1) * 128 := by
          have : ts.length + 1 = (ts.length + 1 - 1) + 1 := by omega
          rw [this]
          exact pow_succ 128 _
        simp only [List.length_cons] at ih1 ih2
        constructor
        · omega
        · left
          rw [hsucc]
          rcases ih2 with hge | hone2
          · omega
          · rw [hone2] at hp2 ⊢
            norm_num at hp2 ⊢
            omega

/-- Every well-formed sequence of `len` bytes denotes an unsigned value below
`128 ^ len`. -/
theorem uvalue_lt_pow (bs : List Nat) : wfLEB bs = true →
    uvalue bs < 128 ^ bs.length := by
  induction bs with
  | nil => intro h; simp [wfLEB] at h
  | cons b rest ih =>
    intro h
    cases rest with
    | nil =>
      simp only [uvalue, List.length_cons, List.length_nil, mul_zero, add_zero]
      have hb : b &&& 127 ≤ 127 := Nat.and_le_right
      norm_num
      omega
    | cons t ts =>
      simp only [wfLEB, Bool.and_eq_true, decide_eq_true_eq] at h
      obtain ⟨⟨h1, h2⟩, h3⟩ := h
      have ihv := ih h3
      have hu : uvalue (b :: t :: ts) = (b &&& 127) + 128 * uvalue (t :: ts) := rfl
      rw [hu]
      simp only [List.length_cons] at ihv ⊢
      have hb : b &&& 127 ≤ 127 := Nat.and_le_right
      have hp : (128:Nat) ^ (ts.length + 1 + 1) = 128 ^ (ts.length + 1) * 128 :=
        pow_succ 128 (ts.length + 1)
      omega

/-- A well-formed sequence is nonempty. -/
theorem wf_ne_nil (bs : List Nat) : wfLEB bs = true → 1 ≤ bs.length := by
  cases bs with
  | nil => intro h; simp [wfLEB] at h
  | cons b rest => intro _; simp

/-- The signed termination test `shr(num, 6) ∈ {0, -1}` holds exactly on the
window `[-64, 64)`. -/
theorem is_encode_end_s_iff (x : Int) :
    is_encode_end_s x = true ↔ (-64 ≤ x ∧ x < 64) := by
  unfold is_encode_end_s
  simp only [Bool.or_eq_true, beq_iff_eq]
  omega

theorem encode_s_go_end (fuel : Nat) (x : Int) (h : -64 ≤ x ∧ x < 64) :
    leb128_encode_s_go (fuel + 1) x = [(x % 256).toNat &&& 127] := by
  have hend : is_encode_end_s x = true := (is_encode_end_s_iff x).mpr h
  simp only [leb128_encode_s_go, hend, if_true]

theorem encode_s_go_cont (fuel : Nat) (x : Int) (h : ¬(-64 ≤ x ∧ x < 64)) :
    leb128_encode_s_go (fuel + 1) x
      = ((x % 256).toNat ||| 128) :: leb128_encode_s_go fuel (x / 128) := by
  have hend : is_encode_end_s x = false := by
    cases hB : is_encode_end_s x
    · rfl
    · exact absurd ((is_encode_end_s_iff x).mp hB) h
  simp only [leb128_encode_s_go, hend, Bool.false_eq_true, if_false, CONTINUATION_eq]

theorem encode_s_go_ne_nil (fuel : Nat) (x : Int) (h : 0 < fuel) :
    leb128_encode_s_go fuel x ≠ [] := by
  obtain ⟨f, rfl⟩ : ∃ f, fuel = f + 1 := ⟨fuel - 1, by omega⟩
  by_cases hend : -64 ≤ x ∧ x < 64
  · rw [encode_s_go_end f x hend]; simp
  · rw [encode_s_go_cont f x hend]; simp

/-- Stripping the flag bits from the two's-complement low byte leaves the low
seven bits of the value. -/
theorem sbyte_low (x : Int) : (x % 256).toNat &&& 127 = (x % 128).toNat := by
  rw [and127_eq_mod]
  omega

theorem sbyte_or (x : Int) : (x % 256).toNat ||| 128 = (x % 128).toNat + 128 := by
  rw [byte_lt_or_or ((x % 256).toNat) (by omega)]
  omega

/-- The final byte of a signed encoding denotes its value under the spec's
sign-extending interpretation. -/
theorem svalue_final (x : Int) (hend : -64 ≤ x ∧ x < 64) :
    svalue [(x % 256).toNat &&& 127] = x := by
  rw [sbyte_low]
  have hb128 : (x % 128).toNat < 128 := by omega
  have hbi : ((x % 128).toNat : Int) = x % 128 := by omega
  simp only [svalue]
  rw [and127_eq_mod, Nat.mod_eq_of_lt hb128]
  by_cases h6 : (x % 128).toNat &&& 64 = 0
  · rw [if_pos h6]
    have hlt := (byte_bit6_iff ((x % 128).toNat) hb128).mp h6
    omega
  · rw [if_neg h6]
    have hge : 64 ≤ (x % 128).toNat := by
      have h' : ¬ (x % 128).toNat < 64 :=
        fun hl => h6 ((byte_bit6_iff ((x % 128).toNat) hb128).mpr hl)
      omega
    omega

/-- Structural invariant of the signed encoder's output. -/
theorem encode_s_go_wf (fuel : Nat) : ∀ x : Int, 0 < fuel →
    -(2 ^ (7 * fuel - 1)) ≤ x → x < 2 ^ (7 * fuel - 1) →
    wfLEB (leb128_encode_s_go fuel x) = true := by
  induction fuel with
  | zero => intro x h0 _ _; exact absurd h0 (lt_irrefl 0)
  | succ fuel ih =>
    intro x _ hl hr
    by_cases hend : -64 ≤ x ∧ x < 64
    · rw [encode_s_go_end fuel x hend]
      have hlt : (x % 256).toNat &&& 127 < 128 := by
        have := and127_eq_mod ((x % 256).toNat)
        omega
      simp [wfLEB, hlt]
    · have hf : 0 < fuel := by
        rcases Nat.eq_zero_or_pos fuel with hf | hf
        · subst hf
          norm_num at hl hr
          exact absurd ⟨hl, hr⟩ hend
        · exact hf
      rw [encode_s_go_cont fuel x hend]
      have hpw : (2:Int) ^ (7 * (fuel + 1) - 1) = 2 ^ (7 * fuel - 1) * 128 := by
        have h7 : 7 * (fuel + 1) - 1 = (7 * fuel - 1) + 7 := by omega
        rw [h7, pow_add]; norm_num
      rw [hpw] at hl hr
      cases htail : leb128_encode_s_go fuel (x / 128) with
      | nil => exact absurd htail (encode_s_go_ne_nil fuel (x / 128) hf)
      | cons t ts =>
        have hwf2 : wfLEB (t :: ts) = true := by
          rw [← htail]
          exact ih (x / 128) hf (by omega) (by omega)
        rw [sbyte_or x]
        simp only [wfLEB, hwf2, Bool.and_true, Bool.and_eq_true, decide_eq_true_eq]
        omega

/-- The signed encoder's output denotes the encoded value under the spec's
signed wire-format interpretation. -/
theorem encode_s_go_svalue (fuel : Nat) : ∀ x : Int, 0 < fuel →
    -(2 ^ (7 * fuel - 1)) ≤ x → x < 2 ^ (7 * fuel - 1) →
    svalue (leb128_encode_s_go fuel x) = x := by
  induction fuel with
  | zero => intro x h0 _ _; exact absurd h0 (lt_irrefl 0)
  | succ fuel ih =>
    intro x _ hl hr
    by_cases hend : -64 ≤ x ∧ x < 64
    · rw [encode_s_go_end fuel x hend]
      exact svalue_final x hend
    · have hf : 0 < fuel := by
        rcases Nat.eq_zero_or_pos fuel with hf | hf
        · subst hf
          norm_num at hl hr
          exact absurd ⟨hl, hr⟩ hend
        · exact hf
      rw [encode_s_go_cont fuel x hend]
      have hpw : (2:Int) ^ (7 * (fuel + 1) - 1) = 2 ^ (7 * fuel - 1) * 128 := by
        have h7 : 7 * (fuel + 1) - 1 = (7 * fuel - 1) + 7 := by omega
        rw [h7, pow_add]; norm_num
      rw [hpw] at hl hr
      cases htail : leb128_encode_s_go fuel (x / 128) with
      | nil => exact absurd htail (encode_s_go_ne_nil fuel (x / 128) hf)
      | cons t ts =>
        have ihv : svalue (t :: ts) = x / 128 := by
          rw [← htail]
          exact ih (x / 128) hf (by omega) (by omega)
        rw [sbyte_or x]
        have hsv : svalue (((x % 128).toNat + 128) :: t :: ts)
            = (((x % 128).toNat + 128) &&& 127 : Nat) + 128 * svalue (t :: ts) := rfl
        rw [hsv, byte_add_cont_and127 ((x % 128).toNat) (by omega), ihv]
        omega

/-- Length window of the signed encoder's output: the value lies in the
signed window of `7 · len` payload bits and (unless a single byte) outside
the window of `7 · (len - 1)` bits. -/
theorem encode_s_go_len (fuel : Nat) : ∀ x : Int, 0 < fuel →
    -(2 ^ (7 * fuel - 1)) ≤ x → x < 2 ^ (7 * fuel - 1) →
    (-(2 ^ (7 * (leb128_encode_s_go fuel x).length - 1)) ≤ x ∧
      x < 2 ^ (7 * (leb128_encode_s_go fuel x).length - 1)) ∧
    ((leb128_encode_s_go fuel x).length = 1 ∨
      ¬(-(2 ^ (7 * ((leb128_encode_s_go fuel x).length - 1) - 1)) ≤ x ∧
        x < 2 ^ (7 * ((leb128_encode_s_go fuel x).length - 1) - 1))) := by
  induction fuel with
  | zero => intro x h0 _ _; exact absurd h0 (lt_irrefl 0)
  | succ fuel ih =>
    intro x _ hl hr
    by_cases hend : -64 ≤ x ∧ x < 64
    · rw [encode_s_go_end fuel x hend]
      refine ⟨?_, Or.inl (by norm_num)⟩
      have hlen : ([(x % 256).toNat &&& 127] : List Nat).length = 1 := rfl
      rw [hlen]
      norm_num
      omega
    · have hf : 0 < fuel := by
        rcases Nat.eq_zero_or_pos fuel with hf | hf
        · subst hf
          norm_num at hl hr
          exact absurd ⟨hl, hr⟩ hend
        · exact hf
      rw [encode_s_go_cont fuel x hend]
      have hpw : (2:Int) ^ (7 * (fuel + 1) - 1) = 2 ^ (7 * fuel - 1) * 128 := by
        have h7 : 7 * (fuel + 1) - 1 = (7 * fuel - 1) + 7 := by omega
        rw [h7, pow_add]; norm_num
      rw [hpw] at hl hr
      obtain ⟨⟨ihl, ihr⟩, ihmin⟩ := ih (x / 128) hf (by omega) (by omega)
      cases htail : leb128_encode_s_go fuel (x / 128) with
      | nil => exact absurd htail (encode_s_go_ne_nil fuel (x / 128) hf)
      | cons t ts =>
        rw [htail] at ihl ihr ihmin
        simp only [List.length_cons] at ihl ihr ihmin ⊢
        have hL1 : 1 ≤ ts.length + 1 := by omega
        have hpw2 : (2:Int) ^ (7 * (ts.length + 1 + 1) - 1)
            = 2 ^ (7 * (ts.length + 1) - 1) * 128 := by
          have h7 : 7 * (ts.length + 1 + 1) - 1 = (7 * (ts.length + 1) - 1) + 7 := by
            omega
          rw [h7, pow_add]; norm_num
        constructor
        · rw [hpw2]
          constructor <;> omega
        · right
          have hsub : ts.length + 1 + 1 - 1 = ts.length + 1 := by omega
          rw [hsub]
          by_cases hL : ts.length = 0
          · rw [hL]
            norm_num
            omega
          · have hmin2 : ¬(-(2 ^ (7 * (ts.length + 1 - 1) - 1)) ≤ x / 128 ∧
                x / 128 < 2 ^ (7 * (ts.length + 1 - 1) - 1)) := by
              rcases ihmin with h1 | h2
              · omega
              · exact h2
            have hpw3 : (2:Int) ^ (7 * (ts.length + 1) - 1)
                = 2 ^ (7 * (ts.length + 1 - 1) - 1) * 128 := by
              have h7 : 7 * (ts.length + 1) - 1 = (7 * (ts.length + 1 - 1) - 1) + 7 := by
                omega
              rw [h7, pow_add]; norm_num
            rintro ⟨hg1, hg2⟩
            rcases not_and_or.mp hmin2 with hmm | hmm
            · rw [hpw3] at hg1
              omega
            · rw [hpw3] at hg2
              omega

/-- Every well-formed sequence of `len` bytes denotes a signed value in the
two's-complement window of `7 · len` bits. -/
theorem svalue_range (bs : List Nat) : wfLEB bs = true →
    -(2 ^ (7 * bs.length - 1)) ≤ svalue bs ∧
      svalue bs < 2 ^ (7 * bs.length - 1) := by
  induction bs with
  | nil => intro h; simp [wfLEB] at h
  | cons b rest ih =>
    intro h
    cases rest with
    | nil =>
      simp only [wfLEB, decide_eq_true_eq] at h
      have hb127 : b &&& 127 = b := by
        rw [and127_eq_mod]
        omega
      simp only [svalue, List.length_cons, List.length_nil]
      norm_num
      rw [hb127]
      by_cases h6 : b &&& 64 = 0
      · rw [if_pos h6]
        have := (byte_bit6_iff b h).mp h6
        constructor <;> omega
      · rw [if_neg h6]
        have hge : 64 ≤ b := by
          have h' : ¬ b < 64 := fun hl => h6 ((byte_bit6_iff b h).mpr hl)
          omega
        constructor <;> omega
    | cons t ts =>
      simp only [wfLEB, Bool.and_eq_true, decide_eq_true_eq] at h
      obtain ⟨⟨h1, h2⟩, h3⟩ := h
      have ihv := ih h3
      simp only [List.length_cons] at ihv ⊢
      have hsv : svalue (b :: t :: ts)
          = ((b &&& 127 : Nat) : Int) + 128 * svalue (t :: ts) := rfl
      rw [hsv]
      have hb : b &&& 127 ≤ 127 := Nat.and_le_right
      have hpw2 : (2:Int) ^ (7 * (ts.length + 1 + 1) - 1)
          = 2 ^ (7 * (ts.length + 1) - 1) * 128 := by
        have h7 : 7 * (ts.length + 1 + 1) - 1 = (7 * (ts.length + 1) - 1) + 7 := by
          omega
        rw [h7, pow_add]; norm_num
      rw [hpw2]
      constructor <;> omega

/-- Counterexample to C7 as stated: C7 quantifies over every supported type,
including the signed 8-bit one — but `leb128_encode` at `i8` panics on the
byte-mask construction and emits no byte sequence at all, so its output
satisfies no continuation-bit invariant. -/
theorem C7_counterexample : leb128_encode_s 8 1 = none := by decide

/-- C7 (amended): canonical minimal well-formed output, for every unsigned
width and every signed width except 8 (whose encode panics — see the
counterexample).  The emitted sequence has the continuation bit set on every
byte but the last and clear on the last, denotes exactly the encoded value
under the type's signedness rule, and is the shortest well-formed sequence
doing so. -/
theorem C7_canonical_minimal_output :
    (∀ W x : Nat, (W = 8 ∨ W = 16 ∨ W = 32 ∨ W = 64 ∨ W = 128) → x < 2 ^ W →
      wfLEB (leb128_encode_u W x) = true ∧ uvalue (leb128_encode_u W x) = x ∧
      ∀ bs, wfLEB bs = true → uvalue bs = x →
        (leb128_encode_u W x).length ≤ bs.length)
    ∧ (∀ (W : Nat) (x : Int), (W = 16 ∨ W = 32 ∨ W = 64 ∨ W = 128) →
      -(2 ^ (W - 1)) ≤ x → x < 2 ^ (W - 1) →
      ∃ bs, leb128_encode_s W x = some bs ∧ wfLEB bs = true ∧ svalue bs = x ∧
        ∀ bs2, wfLEB bs2 = true → svalue bs2 = x → bs.length ≤ bs2.length) := by
  constructor
  · intro W x hW hx
    have h0 : 0 < W := by rcases hW with h|h|h|h|h <;> omega
    have hfuel : x < 128 ^ W :=
      lt_of_lt_of_le hx (Nat.pow_le_pow_left (by norm_num) W)
    refine ⟨encode_u_go_wf W x h0 hfuel, encode_u_go_uvalue W x h0 hfuel, ?_⟩
    intro bs hbs hval
    have huu : leb128_encode_u W x = leb128_encode_u_go W x := rfl
    rw [huu]
    obtain ⟨hlt, hlb⟩ := encode_u_go_len W x h0 hfuel
    have hbslt := uvalue_lt_pow bs hbs
    rw [hval] at hbslt
    rcases hlb with hge | hone
    · by_contra hcon
      have hle : bs.length ≤ (leb128_encode_u_go W x).length - 1 := by omega
      have := Nat.pow_le_pow_right (show 0 < 128 by norm_num) hle
      omega
    · rw [hone]
      exact wf_ne_nil bs hbs
  · intro W x hW hl hr
    have hmask : (255 : Int) ≤ 2 ^ (W - 1) - 1 := by
      rcases hW with h|h|h|h <;> subst h <;> norm_num
    have h0 : 0 < W := by rcases hW with h|h|h|h <;> omega
    have hWbig : (2:Int) ^ (W - 1) ≤ 2 ^ (7 * W - 1) := by
      apply pow_le_pow_right₀ (by norm_num)
      omega
    have hl2 : -(2 ^ (7 * W - 1)) ≤ x := by omega
    have hr2 : x < 2 ^ (7 * W - 1) := by omega
    refine ⟨leb128_encode_s_go W x, ?_, encode_s_go_wf W x h0 hl2 hr2,
      encode_s_go_svalue W x h0 hl2 hr2, ?_⟩
    · unfold leb128_encode_s
      rw [if_pos hmask]
    · intro bs2 hbs2 hval2
      obtain ⟨⟨hLl, hLr⟩, hmin⟩ := encode_s_go_len W x h0 hl2 hr2
      have hrange := svalue_range bs2 hbs2
      rw [hval2] at hrange
      rcases hmin with hone | hnot
      · rw [hone]
        exact wf_ne_nil bs2 hbs2
      · by_contra hcon
        have hb1 : 1 ≤ bs2.length := wf_ne_nil bs2 hbs2
        have hle : 7 * bs2.length - 1
            ≤ 7 * ((leb128_encode_s_go W x).length - 1) - 1 := by omega
        have hmono : (2:Int) ^ (7 * bs2.length - 1)
            ≤ 2 ^ (7 * ((leb128_encode_s_go W x).length - 1) - 1) :=
          pow_le_pow_right₀ (by norm_num) hle
        exact hnot ⟨by omega, by omega⟩

/-- Witness for C7 at unsigned `W = 8`, `x = 200`. -/
theorem C7_canonical_minimal_output_witness :
    wfLEB (leb128_encode_u 8 200) = true ∧ uvalue (leb128_encode_u 8 200) = 200 ∧
      ∀ bs, wfLEB bs = true → uvalue bs = 200 →
        (leb128_encode_u 8 200).length ≤ bs.length :=
  C7_canonical_minimal_output.1 8 200 (Or.inl rfl) (by norm_num)

end LEB128
